import Mathlib

/-!
Verification development for ngAdvancedCache 0.6.0
(`dist/ngAdvancedCache-0.6.0.js`): a capacity-bounded LRU cache with
per-entry TTL timers (`setTimeout`) and an optional cache-wide flush
interval (`setInterval`).

The embedding is a shallow state-passing translation of the `AdvancedCache`
closure.  The JS object maps `data` and `lruHash` become association lists;
the intrusive doubly-linked LRU list is represented by per-key `p`/`n`
fields (node identity in JS coincides with the key, since `lruHash` holds
exactly one node object per key string).  JS `null`ed-out fields after
`destroy` are modelled by `Option`-wrapped maps.  The host timer service is
modelled explicitly: armed `setTimeout` callbacks are a list of
`Timeout` records (id, captured key, absolute deadline) plus a clock `now`;
firing a timeout runs the captured callback `self.remove(key)`.
Thrown JS exceptions (`Error` and `TypeError`) are modelled by `Except`;
since a JS throw does not roll back earlier assignments, every operation
returns the (possibly partially mutated) state alongside the result.
-/

/-- Opaque stored payloads. -/
abbrev Val := Nat

/-- JS exceptions thrown by the cache code: explicit `new Error(msg)` throws
and implicit `TypeError`s (property access on `null`/`undefined`). -/
inductive JSErr where
  | err (msg : String)
  | typeErr
deriving Repr, DecidableEq

/-- A JS value passed as the `key` argument of `put`: either a string, or a
non-string (represented by a number).  Property access coerces it to a
string. -/
inductive JKey where
  | str (s : String)
  | num (i : Int)
deriving Repr, DecidableEq

/-- String coercion used by JS property access `lruHash[key]`. -/
def JKey.toStr : JKey → String
  | .str s => s
  | .num i => toString i

/-- Model of `angular.isString`. -/
def JKey.isString : JKey → Bool
  | .str _ => true
  | .num _ => false

/-- Lookup in a JS-object-as-association-list. -/
def find? {α : Type} : List (String × α) → String → Option α
  | [], _ => none
  | (ka, va) :: rest, k => if ka = k then some va else find? rest k

/-- Assignment `obj[k] = v` (replaces, or appends a fresh property). -/
def setk {α : Type} : List (String × α) → String → α → List (String × α)
  | [], k, v => [(k, v)]
  | (ka, va) :: rest, k, v =>
      if ka = k then (ka, v) :: rest else (ka, va) :: setk rest k v

/-- In-place mutation of the object stored at key `k` (no-op if absent;
the JS source only mutates nodes that are present). -/
def updk {α : Type} : List (String × α) → String → (α → α) → List (String × α)
  | [], _, _ => []
  | (ka, va) :: rest, k, f =>
      if ka = k then (ka, f va) :: rest else (ka, va) :: updk rest k f

/-- `delete obj[k]`. -/
def erasek {α : Type} : List (String × α) → String → List (String × α)
  | [], _ => []
  | (ka, va) :: rest, k => if ka = k then rest else (ka, va) :: erasek rest k

/-- Property names of a JS object. -/
def keysOf {α : Type} : List (String × α) → List String
  | [] => []
  | (ka, _) :: rest => ka :: keysOf rest

/-- One LRU node (`lruHash[key]`): `p`/`n` are the prev/next links of the
intrusive doubly-linked list, ordered from stale end to fresh end.
Links name keys, which identify node objects uniquely. -/
structure Node where
  p : Option String
  n : Option String
deriving Repr, DecidableEq

abbrev LMap := List (String × Node)

/-- One entry store record (`data[key]`): the value, plus the optional
`timestamp` and `timeoutId` fields set by the maxAge machinery. -/
structure Entry where
  value : Val
  timestamp : Option Nat := none
  timeoutId : Option Nat := none
deriving Repr, DecidableEq

abbrev DMap := List (String × Entry)

/-- An armed `setTimeout` whose callback is `self.remove(key)`. -/
structure Timeout where
  id : Nat
  key : String
  fireAt : Nat
deriving Repr, DecidableEq

/-- The `config` object.  `capacity = none` models the `Number.MAX_VALUE`
default (effectively unbounded).  `cacheFlushIntervalId` is the
`setInterval` handle stored onto `config` when a flush interval is
configured. -/
structure Config where
  id : String
  capacity : Option Int
  maxAge : Option Int
  cacheFlushInterval : Option Int
  cacheFlushIntervalId : Option Nat
deriving Repr, DecidableEq

/-- The whole closure state of one `AdvancedCache` instance, together with
the modelled timer service (armed timeouts, id counter, clock). -/
structure CacheState where
  config : Option Config
  data : Option DMap
  lruHash : Option LMap
  freshEnd : Option String
  staleEnd : Option String
  size : Int
  timeouts : List Timeout
  nextTimerId : Nat
  now : Nat
deriving Repr, DecidableEq

/-- JS numeric truthiness of an optional number field (`undefined` and `0`
are falsy). -/
def numTruthy : Option Int → Bool
  | some m => m != 0
  | none => false

/-- Head of a list as an `Option`, with a default for the empty case. -/
def headD : List String → Option String → Option String
  | [], d => d
  | x :: _, _ => some x

/-- Set the `p` (prev) field of the node at `k`. -/
def setP (lm : LMap) (k : String) (v : Option String) : LMap :=
  updk lm k (fun nd => { nd with p := v })

/-- Set the `n` (next) field of the node at `k`. -/
def setN (lm : LMap) (k : String) (v : Option String) : LMap :=
  updk lm k (fun nd => { nd with n := v })

/-- `_link(nextEntry, prevEntry)`: bidirectionally links two entries;
mirrors the guard `nextEntry !== prevEntry` and the two conditional field
assignments. -/
def link (lm : LMap) (nextE prevE : Option String) : LMap :=
  if nextE = prevE then lm
  else
    let lm1 := match nextE with
      | some k => setP lm k prevE
      | none => lm
    match prevE with
    | some k => setN lm1 k nextE
    | none => lm1

/-- `_refresh(entry)`: makes the node at `k` the fresh end.  Takes the
current `freshEnd`/`staleEnd` variables and the `lruHash` map, returns
their updated values, mirroring the JS statement order (the stale-end
handoff reads `entry.n` before any relinking). -/
def refresh (fe se : Option String) (lm : LMap) (k : String) :
    LMap × Option String × Option String :=
  if fe = some k then (lm, fe, se)
  else
    let nd := (find? lm k).getD { p := none, n := none }
    let se2 := if se = none then some k else if se = some k then nd.n else se
    let lm1 := link lm nd.n nd.p
    let lm2 := link lm1 (some k) fe
    let lm3 := setN lm2 k none
    (lm3, some k, se2)

/-- `clearTimeout(tid)`: disarm the timeout with the given handle. -/
def clearTimeout (ts : List Timeout) (tid : Nat) : List Timeout :=
  ts.filter (fun t => t.id != tid)

/-- `AdvancedCache.remove(key)`.  Note: the source never clears the
entry's `timeoutId` here. -/
def removeOp (st : CacheState) (k : String) : CacheState × Except JSErr Unit :=
  match st.lruHash with
  | none => (st, .error .typeErr)
  | some lm =>
    match find? lm k with
    | none => (st, .ok ())
    | some nd =>
      let fe2 := if st.freshEnd = some k then nd.p else st.freshEnd
      let se2 := if st.staleEnd = some k then nd.n else st.staleEnd
      let lm2 := erasek (link lm nd.n nd.p) k
      match st.data with
      | none =>
        ({ st with lruHash := some lm2, freshEnd := fe2, staleEnd := se2 },
         .error .typeErr)
      | some dm =>
        ({ st with lruHash := some lm2, data := some (erasek dm k),
                   freshEnd := fe2, staleEnd := se2, size := st.size - 1 },
         .ok ())

/-- The `lruHash[key] || (lruHash[key] = {key: key})` idiom: reuse the
node if present, otherwise create a fresh unlinked one. -/
def ensureNode (lm : LMap) (k : String) : LMap :=
  match find? lm k with
  | some _ => lm
  | none => setk lm k { p := none, n := none }

/-- Tail of `put`: the capacity check `size > config.capacity` followed by
`this.remove(staleEnd.key)` (a `TypeError` if `staleEnd` is `null`). -/
def putTail (st4 : CacheState) (cap : Option Int) (size2 : Int) (v : Val) :
    CacheState × Except JSErr (Option Val) :=
  if (match cap with
      | some c => decide (size2 > c)
      | none => false) then
    match st4.staleEnd with
    | none => (st4, .error .typeErr)
    | some sk => ((removeOp st4 sk).1, .ok (some v))
  else (st4, .ok (some v))

/-- `AdvancedCache.put(key, value, options)`, statement by statement:
node creation happens before the key-type check and the per-call maxAge
validation; `_refresh` runs before the `undefined`-value early return;
`data[key]` is replaced by a fresh `{value}` object before the (therefore
always-false) `data[key].timeoutId` check; capacity is enforced last by
`this.remove(staleEnd.key)`. -/
def put (st : CacheState) (key : JKey) (value : Option Val)
    (optMaxAge : Option Int) : CacheState × Except JSErr (Option Val) :=
  match st.lruHash with
  | none => (st, .error .typeErr)
  | some lm0 =>
    let k := key.toStr
    let lm := ensureNode lm0 k
    let st1 : CacheState := { st with lruHash := some lm }
    if key.isString = false then
      (st1, .error (.err "The key must be a string!"))
    else if numTruthy optMaxAge = true ∧ optMaxAge.getD 0 < 0 then
      (st1, .error (.err "maxAge must be greater than zero!;"))
    else
      let r := refresh st1.freshEnd st1.staleEnd lm k
      let st2 : CacheState :=
        { st1 with lruHash := some r.1, freshEnd := r.2.1, staleEnd := r.2.2 }
      match value with
      | none => (st2, .ok none)
      | some v =>
        match st2.data with
        | none => (st2, .error .typeErr)
        | some dm0 =>
          let size2 := if (find? dm0 k).isSome then st2.size else st2.size + 1
          let dm1 := setk dm0 k { value := v }
          let st3 : CacheState := { st2 with data := some dm1, size := size2 }
          match st3.config with
          | none => (st3, .error .typeErr)
          | some cfg =>
            let st4 : CacheState :=
              if numTruthy cfg.maxAge || numTruthy optMaxAge then
                let dm2 := updk dm1 k (fun e => { e with timestamp := some st3.now })
                let ts1 :=
                  match (find? dm2 k).bind (fun e => e.timeoutId) with
                  | some tid => clearTimeout st3.timeouts tid
                  | none => st3.timeouts
                let d : Int :=
                  if numTruthy optMaxAge then optMaxAge.getD 0 else cfg.maxAge.getD 0
                let dm3 := updk dm2 k (fun e => { e with timeoutId := some st3.nextTimerId })
                { st3 with data := some dm3,
                           timeouts := ts1 ++
                             [{ id := st3.nextTimerId, key := k, fireAt := st3.now + d.toNat }],
                           nextTimerId := st3.nextTimerId + 1 }
              else st3
            putTail st4 cfg.capacity size2 v

/-- `AdvancedCache.getOp(key)`: absent node returns `undefined`; a present
node is refreshed and then `data[key].value` is read (a `TypeError` when
the key has a node but no store entry). -/
def getOp (st : CacheState) (k : String) : CacheState × Except JSErr (Option Val) :=
  match st.lruHash with
  | none => (st, .error .typeErr)
  | some lm =>
    match find? lm k with
    | none => (st, .ok none)
    | some _ =>
      let r := refresh st.freshEnd st.staleEnd lm k
      let st2 : CacheState :=
        { st with lruHash := some r.1, freshEnd := r.2.1, staleEnd := r.2.2 }
      match st2.data with
      | none => (st2, .error .typeErr)
      | some dm =>
        match find? dm k with
        | none => (st2, .error .typeErr)
        | some e => (st2, .ok (some e.value))

/-- `AdvancedCache.removeAll()`: plain reassignments, so it succeeds even
after `destroy`; armed timeouts are not touched. -/
def removeAll (st : CacheState) : CacheState × Except JSErr Unit :=
  ({ st with data := some [], size := 0, lruHash := some [],
             freshEnd := none, staleEnd := none }, .ok ())

/-- `AdvancedCache.destroy()`: clears the flush interval (a `TypeError`
if `config` is already `null`), then nulls out `data`, `config` and
`lruHash`.  `size`, the end pointers and armed timeouts survive. -/
def destroy (st : CacheState) : CacheState × Except JSErr Unit :=
  match st.config with
  | none => (st, .error .typeErr)
  | some _ => ({ st with config := none, data := none, lruHash := none }, .ok ())

/-- Result of `angular.extend({}, config, {size: size})`: all own fields
of `config` (skipped entirely when `config` is `null`) plus `size`. -/
structure InfoSnap where
  config : Option Config
  size : Int
deriving Repr, DecidableEq

/-- `AdvancedCache.info()`. -/
def info (st : CacheState) : CacheState × Except JSErr InfoSnap :=
  (st, .ok { config := st.config, size := st.size })

/-- The `AdvancedCache` constructor: option validation (error messages
concatenated in source order), the `Number.MAX_VALUE` capacity default for
falsy capacities, and arming of the flush interval. -/
def mkCache (cid : String) (capacity maxAge flushInterval : Option Int) :
    Except JSErr CacheState :=
  let e1 := if numTruthy capacity = true ∧ capacity.getD 0 < 0 then
    "capacity must be greater than zero!;" else ""
  let e2 := if numTruthy maxAge = true ∧ maxAge.getD 0 < 0 then
    "maxAge must be greater than zero!;" else ""
  let e3 := if numTruthy flushInterval = true ∧ flushInterval.getD 0 < 0 then
    "cacheFlushInterval must be greater than zero!;" else ""
  let msg := e1 ++ e2 ++ e3
  if msg ≠ "" then .error (.err msg)
  else
    let cap := if numTruthy capacity then capacity else none
    let armed := numTruthy flushInterval
    .ok { config := some { id := cid, capacity := cap, maxAge := maxAge,
                           cacheFlushInterval := flushInterval,
                           cacheFlushIntervalId := if armed then some 0 else none },
          data := some [], lruHash := some [],
          freshEnd := none, staleEnd := none, size := 0,
          timeouts := [], nextTimerId := if armed then 1 else 0, now := 0 }

/-- The timer service fires an armed, due `setTimeout`: the handle is
spent and the captured callback `self.remove(key)` runs (an exception it
throws stays inside the timer tick). -/
def fireTimeout (st : CacheState) (tid : Nat) : CacheState :=
  match st.timeouts.find? (fun t => t.id == tid) with
  | none => st
  | some t =>
    if t.fireAt ≤ st.now then
      (removeOp { st with timeouts := clearTimeout st.timeouts tid } t.key).1
    else st

/-- The timer service fires the `cacheFlushInterval` callback: it clears
the timeouts currently stored on entries and resets `data`, `lruHash` and
both end pointers.  The source does not reset `size` here. -/
def flushFire (st : CacheState) : CacheState :=
  match st.config with
  | none => st
  | some cfg =>
    match cfg.cacheFlushIntervalId with
    | none => st
    | some _ =>
      match st.data with
      | none => st
      | some dm =>
        let tids := dm.filterMap (fun kv => kv.2.timeoutId)
        { st with timeouts := st.timeouts.filter (fun t => !(tids.contains t.id)),
                  data := some [], lruHash := some [],
                  freshEnd := none, staleEnd := none }

/-- Let wall-clock time pass. -/
def advance (st : CacheState) (d : Nat) : CacheState :=
  { st with now := st.now + d }

/-- Total extraction of a successful construction (fallback never used in
the theorems below, where construction demonstrably succeeds). -/
def exOk {α : Type} (dflt : α) : Except JSErr α → α
  | .ok x => x
  | .error _ => dflt

/-- The all-null state (shape of a destroyed instance), used as a fallback. -/
def deadState : CacheState :=
  { config := none, data := none, lruHash := none, freshEnd := none,
    staleEnd := none, size := 0, timeouts := [], nextTimerId := 0, now := 0 }

/-- A cache built with no options: `$advancedCacheFactory('c')`. -/
def cachePlain : CacheState := exOk deadState (mkCache "c" none none none)

/-- A cache built with `{cacheFlushInterval: 100}`. -/
def cacheFlush : CacheState := exOk deadState (mkCache "f" none none (some 100))

/-- Does the entry store hold a value for `q`? -/
def dataHasKey (st : CacheState) (q : String) : Bool :=
  match st.data with
  | some dm => (find? dm q).isSome
  | none => false

def c2s1 : CacheState := (put cachePlain (.str "k") (some 1) (some 100)).1

def c2s2 : CacheState := (put (advance c2s1 50) (.str "k") (some 2) (some 100)).1

def c2s3 : CacheState := fireTimeout (advance c2s2 50) 0

/-- Claim C2 (code bug): `put('k',1,{maxAge:100})` at t=0 arms timeout 0
for t=100; overwriting with `put('k',2,{maxAge:100})` at t=50 is claimed
to cancel timeout 0 before arming timeout 1 for t=150.  In the source,
`data[key] = {value: value}` replaces the entry object before the
`data[key].timeoutId` check, so the old handle is never cleared: after the
overwrite both timeouts are armed, and when timeout 0 fires at t=100 (the
original deadline) it removes the overwritten entry, so `getOp('k')` is
already absent at t=100 < 150 instead of surviving until the new
deadline. -/
theorem overwrite_timer_not_cancelled_bug :
    c2s1.timeouts = [{ id := 0, key := "k", fireAt := 100 }] ∧
    c2s2.timeouts = [{ id := 0, key := "k", fireAt := 100 },
                     { id := 1, key := "k", fireAt := 150 }] ∧
    c2s3.now = 100 ∧ dataHasKey c2s3 "k" = false ∧
    (getOp c2s3 "k").2 = .ok none := by
  refine ⟨rfl, rfl, rfl, rfl, rfl⟩

/-! ### C3: removal paths never cancel an entry's armed expiry timer -/

def c3s1 : CacheState := (put cachePlain (.str "k") (some 1) (some 100)).1

def c3s2 : CacheState := (removeOp (advance c3s1 10) "k").1

def c3s3 : CacheState := (put c3s2 (.str "k") (some 2) none).1

def c3s4 : CacheState := fireTimeout (advance c3s3 90) 0

/-- Claim C3 (code bug): `remove` (and `removeAll`) contain no
`clearTimeout`, so removing `'k'` at t=10 leaves its expiry timeout 0
(deadline t=100) armed; after `'k'` is re-put at t=10 with no max age, the
stale callback fires at t=100 and removes the new entry, exactly the
scenario the claim rules out. -/
theorem remove_leaves_timer_armed_bug :
    c3s2.timeouts = [{ id := 0, key := "k", fireAt := 100 }] ∧
    dataHasKey c3s2 "k" = false ∧
    (getOp c3s3 "k").2 = .ok (some 2) ∧
    c3s4.data = some [] ∧ (getOp c3s4 "k").2 = .ok none := by
  refine ⟨rfl, rfl, rfl, rfl, rfl⟩

/-! ### C4: a flush-interval firing is not equivalent to removeAll -/

def c4s1 : CacheState := (put cacheFlush (.str "a") (some 1) none).1

/-- Claim C4 (code bug): the `cacheFlushInterval` callback resets `data`,
`lruHash` and both end pointers but, unlike `removeAll`, forgets to reset
`size`.  After one `put`, a flush firing leaves `size = 1` while
`removeAll` leaves `size = 0`; subsequent `getOp`s return absent in both
cases. -/
theorem flush_fire_keeps_stale_size_bug :
    (flushFire c4s1).size = 1 ∧ (removeAll c4s1).1.size = 0 ∧
    (getOp (flushFire c4s1) "a").2 = .ok none ∧
    (getOp (removeAll c4s1).1 "a").2 = .ok none := by
  refine ⟨rfl, rfl, rfl, rfl⟩

/-! ### C5 counterexample: a sentinel put desynchronises store and list -/

def c5s1 : CacheState := (put cachePlain (.str "a") none none).1

/-- Claim C6 counterexample: `angular.isString('')` holds, so
`put('', 1)` raises nothing and stores the value under the empty key,
although the claim requires an `InvalidKey` error for empty keys. -/
theorem empty_key_put_accepted_cex :
    (put cachePlain (.str "") (some 1) none).2 = .ok (some 1) ∧
    dataHasKey (put cachePlain (.str "") (some 1) none).1 "" = true := by
  refine ⟨rfl, rfl⟩

/-- Claim C6 (amended): `put` raises synchronously when the key is a
non-string or when a truthy per-call `maxAge` is negative; the error is
thrown after the `lruHash[key] || (lruHash[key] = {key: key})` idiom has
run, so the resulting state is the original one except that a first-time
key leaves a fresh unlinked node in the LRU hash — the entry store, size,
end pointers and timers are untouched (and an empty string key is not an
error at all). -/
theorem put_error_footprint (st : CacheState) (lm : LMap) (key : JKey)
    (v : Option Val) (mx : Option Int) (hlru : st.lruHash = some lm)
    (hbad : key.isString = false ∨ (numTruthy mx = true ∧ mx.getD 0 < 0)) :
    ∃ msg, put st key v mx =
      ({ st with lruHash := some (ensureNode lm key.toStr) }, .error (.err msg)) := by
  rcases hbad with hb | hb
  · exact ⟨"The key must be a string!", by simp [put, hlru, hb]⟩
  · by_cases hk : key.isString = false
    · exact ⟨"The key must be a string!", by simp [put, hlru, hk]⟩
    · refine ⟨"maxAge must be greater than zero!;", ?_⟩
      simp [put, hlru, hk, hb.1, hb.2]

/-- Witness for C6: a numeric key on the plain cache throws and leaves
exactly the unlinked node `"5"` behind. -/
theorem put_error_footprint_witness :
    ∃ msg, put cachePlain (.num 5) (some 1) none =
      ({ cachePlain with lruHash := some (ensureNode [] "5") }, .error (.err msg)) :=
  put_error_footprint cachePlain [] (.num 5) (some 1) none rfl (Or.inl rfl)

/-! ### C7: behavior after destroy -/

def destroyedCache : CacheState := (destroy cachePlain).1

/-- Claim C7 counterexample: on a destroyed instance `removeAll()`
completes silently (even resurrecting empty maps) and `info()` returns a
size-only snapshot without any error, contradicting the claim that every
operation after `destroy` is rejected. -/
theorem removeAll_after_destroy_silent_cex :
    (removeAll destroyedCache).2 = .ok () ∧
    (info destroyedCache).2 = .ok { config := none, size := 0 } := by
  refine ⟨rfl, rfl⟩

/-- Claim C7 (amended): after `destroy` nulls out `config`, `data` and
`lruHash`, the operations `put`, `getOp` and `remove` all fail with a
`TypeError` (property access on `null`) and leave the state unchanged,
but `removeAll` and `info` still complete without any error: `removeAll`
reinstalls empty maps and `info` returns a snapshot holding only `size`. -/
theorem destroyed_ops_behavior (st : CacheState) (h1 : st.config = none)
    (h2 : st.data = none) (h3 : st.lruHash = none) :
    (∀ key v mx, put st key v mx = (st, .error .typeErr)) ∧
    (∀ k, getOp st k = (st, .error .typeErr)) ∧
    (∀ k, removeOp st k = (st, .error .typeErr)) ∧
    removeAll st = ({ st with data := some [], size := 0, lruHash := some [],
                              freshEnd := none, staleEnd := none }, .ok ()) ∧
    info st = (st, .ok { config := none, size := st.size }) := by
  refine ⟨fun key v mx => by simp [put, h3], fun k => by simp [getOp, h3],
          fun k => by simp [removeOp, h3], by simp [removeAll], by simp [info, h1]⟩

/-- Witness for C7 at the concretely destroyed plain cache. -/
theorem destroyed_ops_behavior_witness :
    put destroyedCache (.str "a") (some 1) none = (destroyedCache, .error .typeErr) ∧
    getOp destroyedCache "a" = (destroyedCache, .error .typeErr) ∧
    removeOp destroyedCache "a" = (destroyedCache, .error .typeErr) := by
  refine ⟨(destroyed_ops_behavior destroyedCache rfl rfl rfl).1 (.str "a") (some 1) none,
          (destroyed_ops_behavior destroyedCache rfl rfl rfl).2.1 "a",
          (destroyed_ops_behavior destroyedCache rfl rfl rfl).2.2.1 "a"⟩

/-! ### C9: content of the info snapshot -/

/-- Claim C9 counterexample: with `cacheFlushInterval` configured, the
constructor stores the `setInterval` handle on `config` as
`cacheFlushIntervalId`, and `info()` copies every `config` field, so the
snapshot contains a live timer handle (the fifth config component,
`some 0`), contrary to the claim that timer handles never appear. -/
theorem info_leaks_interval_handle_cex :
    (info cacheFlush).2 =
      .ok { config := some { id := "f", capacity := none, maxAge := none,
                             cacheFlushInterval := some 100,
                             cacheFlushIntervalId := some 0 },
            size := 0 } := by
  rfl

/-- Claim C9 (amended): `info()` never throws, does not mutate the state,
and returns exactly the `config` fields — `id`, the (defaulted)
`capacity`, `maxAge`, `cacheFlushInterval`, and, when a flush interval is
configured, the interval timer handle `cacheFlushIntervalId` — together
with the current `size`.  The entry store, the LRU nodes/end pointers and
the per-entry timeout handles never appear in the snapshot. -/
theorem info_snapshot_content (st : CacheState) (cfg : Config)
    (h : st.config = some cfg) :
    info st = (st, .ok { config := some cfg, size := st.size }) := by
  simp [info, h]

/-- Witness for C9 on the plain cache. -/
theorem info_snapshot_content_witness :
    info cachePlain =
      (cachePlain, .ok { config := some { id := "c", capacity := none,
                                          maxAge := none, cacheFlushInterval := none,
                                          cacheFlushIntervalId := none },
                         size := 0 }) :=
  info_snapshot_content cachePlain _ rfl

/-! ### Association-map lemmas -/

theorem find?_setk_self {α : Type} (m : List (String × α)) (k : String) (v : α) :
    find? (setk m k v) k = some v := by
  induction m with
  | nil => simp [setk, find?]
  | cons hd tl ih =>
    cases hd with
    | mk ka va => by_cases h : ka = k <;> simp [setk, find?, h, ih]

theorem find?_setk_ne {α : Type} (m : List (String × α)) (k q : String) (v : α)
    (h : q ≠ k) : find? (setk m k v) q = find? m q := by
  induction m with
  | nil => simp [setk, find?, Ne.symm h]
  | cons hd tl ih =>
    cases hd with
    | mk ka va =>
      by_cases hk : ka = k
      · subst hk
        simp [setk, find?, Ne.symm h]
      · by_cases hq : ka = q <;> simp [setk, find?, hk, hq, h, Ne.symm h, ih]

theorem find?_updk_self {α : Type} (m : List (String × α)) (k : String)
    (f : α → α) : find? (updk m k f) k = (find? m k).map f := by
  induction m with
  | nil => simp [updk, find?]
  | cons hd tl ih =>
    cases hd with
    | mk ka va => by_cases h : ka = k <;> simp [updk, find?, h, ih]

theorem find?_updk_ne {α : Type} (m : List (String × α)) (k q : String)
    (f : α → α) (h : q ≠ k) : find? (updk m k f) q = find? m q := by
  induction m with
  | nil => simp [updk, find?]
  | cons hd tl ih =>
    cases hd with
    | mk ka va =>
      by_cases hk : ka = k
      · subst hk
        simp [updk, find?, Ne.symm h]
      · by_cases hq : ka = q <;> simp [updk, find?, hk, hq, h, Ne.symm h, ih]

theorem find?_erasek_ne {α : Type} (m : List (String × α)) (k q : String)
    (h : q ≠ k) : find? (erasek m k) q = find? m q := by
  induction m with
  | nil => simp [erasek, find?]
  | cons hd tl ih =>
    cases hd with
    | mk ka va =>
      by_cases hk : ka = k
      · subst hk
        simp [erasek, find?, Ne.symm h]
      · by_cases hq : ka = q <;> simp [erasek, find?, hk, hq, h, Ne.symm h, ih]

theorem find?_isSome_iff_mem {α : Type} (m : List (String × α)) (q : String) :
    (find? m q).isSome = true ↔ q ∈ keysOf m := by
  induction m with
  | nil => simp [find?, keysOf]
  | cons hd tl ih =>
    cases hd with
    | mk ka va =>
      by_cases hk : ka = q
      · subst hk
        simp [find?, keysOf]
      · simp [find?, keysOf, hk, Ne.symm hk, ih]

theorem find?_eq_none_of_not_mem {α : Type} (m : List (String × α)) (q : String)
    (h : q ∉ keysOf m) : find? m q = none := by
  have h2 := (find?_isSome_iff_mem m q).not.mpr h
  cases hf : find? m q with
  | none => rfl
  | some v => simp [hf] at h2

theorem mem_keysOf_of_find? {α : Type} {m : List (String × α)} {q : String}
    {v : α} (h : find? m q = some v) : q ∈ keysOf m :=
  (find?_isSome_iff_mem m q).mp (by simp [h])

theorem find?_erasek_self {α : Type} (m : List (String × α)) (k : String)
    (h : (keysOf m).Nodup) : find? (erasek m k) k = none := by
  induction m with
  | nil => simp [erasek, find?]
  | cons hd tl ih =>
    cases hd with
    | mk ka va =>
      simp [keysOf, List.nodup_cons] at h
      by_cases hk : ka = k
      · subst hk
        have : erasek ((ka, va) :: tl) ka = tl := by simp [erasek]
        rw [this]
        exact find?_eq_none_of_not_mem tl ka h.1
      · simp [erasek, find?, hk, ih h.2]

theorem keysOf_updk {α : Type} (m : List (String × α)) (k : String) (f : α → α) :
    keysOf (updk m k f) = keysOf m := by
  induction m with
  | nil => simp [updk]
  | cons hd tl ih =>
    cases hd with
    | mk ka va => by_cases hk : ka = k <;> simp [updk, keysOf, hk, ih]

theorem setk_of_not_mem {α : Type} (m : List (String × α)) (k : String) (v : α)
    (h : k ∉ keysOf m) : setk m k v = m ++ [(k, v)] := by
  induction m with
  | nil => simp [setk]
  | cons hd tl ih =>
    cases hd with
    | mk ka va =>
      simp [keysOf] at h
      simp [setk, Ne.symm h.1]
      exact ih h.2

theorem keysOf_setk_of_mem {α : Type} (m : List (String × α)) (k : String)
    (v : α) (h : k ∈ keysOf m) : keysOf (setk m k v) = keysOf m := by
  induction m with
  | nil => simp [keysOf] at h
  | cons hd tl ih =>
    cases hd with
    | mk ka va =>
      by_cases hk : ka = k
      · simp [setk, hk, keysOf]
      · simp [keysOf, Ne.symm hk] at h
        simp [setk, hk, keysOf, ih h]

theorem keysOf_append {α : Type} (m1 m2 : List (String × α)) :
    keysOf (m1 ++ m2) = keysOf m1 ++ keysOf m2 := by
  induction m1 with
  | nil => simp [keysOf]
  | cons hd tl ih =>
    cases hd with
    | mk ka va => simp [keysOf, ih]

theorem keysOf_erasek_sublist {α : Type} (m : List (String × α)) (k : String) :
    (keysOf (erasek m k)).Sublist (keysOf m) := by
  induction m with
  | nil => simp [erasek]
  | cons hd tl ih =>
    cases hd with
    | mk ka va =>
      by_cases hk : ka = k
      · simp [erasek, hk, keysOf]
      · simp [erasek, hk, keysOf]
        exact ih

theorem keysOf_erasek_nodup {α : Type} (m : List (String × α)) (k : String)
    (h : (keysOf m).Nodup) : (keysOf (erasek m k)).Nodup :=
  (keysOf_erasek_sublist m k).nodup h

theorem keysOf_setk_nodup {α : Type} (m : List (String × α)) (k : String) (v : α)
    (h : (keysOf m).Nodup) : (keysOf (setk m k v)).Nodup := by
  by_cases hm : k ∈ keysOf m
  · rw [keysOf_setk_of_mem m k v hm]
    exact h
  · rw [setk_of_not_mem m k v hm, keysOf_append]
    have hk1 : keysOf ([(k, v)] : List (String × α)) = [k] := rfl
    rw [hk1]
    exact List.Nodup.append h (List.nodup_singleton k)
      (by simpa [List.disjoint_right] using hm)

/-! ### The list-segment representation of the intrusive LRU list -/

/-- Last element of a list as an `Option`, with a default for the empty
case (the incoming `prev` link of a segment that follows the list). -/
def lastD : List String → Option String → Option String
  | [], d => d
  | x :: xs, _ => lastD xs (some x)

/-- `Seg lm prev l nxt` says that the keys `l` form a well-linked chain of
nodes of `lm`: the first node's `p` is `prev`, consecutive nodes point at
each other, and the last node's `n` is `nxt`. -/
def Seg (lm : LMap) : Option String → List String → Option String → Prop
  | _, [], _ => True
  | prev, k :: ks, nxt =>
    (∃ nd, find? lm k = some nd ∧ nd.p = prev ∧ nd.n = headD ks nxt) ∧
      Seg lm (some k) ks nxt

theorem headD_append (a b : List String) (d : Option String) :
    headD (a ++ b) d = headD a (headD b d) := by
  cases a <;> simp [headD]

theorem lastD_append (a b : List String) (d : Option String) :
    lastD (a ++ b) d = lastD b (lastD a d) := by
  induction a generalizing d with
  | nil => simp [lastD]
  | cons x xs ih => simp [lastD, ih]

theorem lastD_concat (l : List String) (x : String) (d : Option String) :
    lastD (l ++ [x]) d = some x := by
  rw [lastD_append]
  simp [lastD]

theorem lastD_decomp (l : List String) (d : Option String) (k : String)
    (h : lastD l d = some k) : (∃ a, l = a ++ [k]) ∨ (l = [] ∧ d = some k) := by
  induction l generalizing d with
  | nil => exact Or.inr ⟨rfl, h⟩
  | cons x xs ih =>
    rcases ih (some x) h with ⟨a, ha⟩ | ⟨ha, hd⟩
    · exact Or.inl ⟨x :: a, by rw [ha]; rfl⟩
    · subst ha
      have hx : x = k := by injection hd
      exact Or.inl ⟨[], by rw [hx]; rfl⟩

theorem Seg_congrOn (m1 m2 : LMap) (l : List String) (p x : Option String)
    (hf : ∀ q ∈ l, find? m2 q = find? m1 q) (h : Seg m1 p l x) :
    Seg m2 p l x := by
  induction l generalizing p with
  | nil => trivial
  | cons k ks ih =>
    simp only [Seg] at h ⊢
    obtain ⟨⟨nd, hnd, hp, hn⟩, htl⟩ := h
    refine ⟨⟨nd, ?_, hp, hn⟩,
      ih (some k) (fun q hq => hf q (List.mem_cons_of_mem k hq)) htl⟩
    rw [hf k (List.mem_cons_self k ks), hnd]

theorem Seg_updk_frame (m : LMap) (q : String) (f : Node → Node)
    (l : List String) (p x : Option String) (h : q ∉ l) :
    Seg (updk m q f) p l x ↔ Seg m p l x := by
  constructor
  · intro hs
    refine Seg_congrOn (updk m q f) m l p x (fun r hr => ?_) hs
    exact (find?_updk_ne m q r f (fun he => h (he ▸ hr))).symm
  · intro hs
    refine Seg_congrOn m (updk m q f) l p x (fun r hr => ?_) hs
    exact find?_updk_ne m q r f (fun he => h (he ▸ hr))

theorem Seg_append_iff (lm : LMap) (a b : List String) (p x : Option String) :
    Seg lm p (a ++ b) x ↔ Seg lm p a (headD b x) ∧ Seg lm (lastD a p) b x := by
  induction a generalizing p with
  | nil => simp [Seg, lastD]
  | cons a0 a2 ih =>
    show Seg lm p (a0 :: (a2 ++ b)) x ↔
      Seg lm p (a0 :: a2) (headD b x) ∧ Seg lm (lastD a2 (some a0)) b x
    simp only [Seg]
    rw [ih (some a0), headD_append, and_assoc]

theorem Seg_single_iff (lm : LMap) (k : String) (p x : Option String) :
    Seg lm p [k] x ↔ ∃ nd, find? lm k = some nd ∧ nd.p = p ∧ nd.n = x := by
  simp [Seg, headD]

theorem Seg_setP_head (m : LMap) (q : String) (qs : List String)
    (p0 x pv : Option String) (hseg : Seg m p0 (q :: qs) x) (hq : q ∉ qs) :
    Seg (setP m q pv) pv (q :: qs) x := by
  simp only [Seg] at hseg ⊢
  obtain ⟨⟨nd, hnd, hp, hn⟩, htl⟩ := hseg
  refine ⟨⟨{ nd with p := pv }, ?_, rfl, hn⟩, ?_⟩
  · rw [setP, find?_updk_self, hnd]
    rfl
  · exact (Seg_updk_frame m q _ qs (some q) x hq).mpr htl

theorem Seg_setN_last (m : LMap) (l2 : List String) (z : String)
    (p x nx : Option String) (hseg : Seg m p (l2 ++ [z]) x) (hz : z ∉ l2) :
    Seg (setN m z nx) p (l2 ++ [z]) nx := by
  rw [Seg_append_iff] at hseg ⊢
  obtain ⟨h1, h2⟩ := hseg
  constructor
  · have he : headD [z] x = headD [z] nx := rfl
    rw [← he]
    exact (Seg_updk_frame m z _ l2 p (headD [z] x) hz).mpr h1
  · rw [Seg_single_iff] at h2 ⊢
    obtain ⟨nd, hnd, hp, hn⟩ := h2
    refine ⟨{ nd with n := nx }, ?_, hp, rfl⟩
    rw [setN, find?_updk_self, hnd]
    rfl

/-! ### Reference LRU order and unfoldings of link and refresh -/

/-- The independent reference model of one recency touch: move `k` to the
fresh (last) position of the recency order (least-recently touched
first). -/
def refTouch (ord : List String) (k : String) : List String :=
  ord.filter (fun x => x != k) ++ [k]

theorem filter_ne_of_not_mem (l : List String) (k : String) (h : k ∉ l) :
    l.filter (fun x => x != k) = l := by
  rw [List.filter_eq_self]
  intro x hx
  simp only [bne_iff_ne, ne_eq]
  exact fun he => h (he ▸ hx)

theorem keysOf_link (lm : LMap) (a b : Option String) :
    keysOf (link lm a b) = keysOf lm := by
  by_cases h : a = b
  · simp [link, h]
  · cases a <;> cases b <;> simp [link, h, setP, setN, keysOf_updk]

theorem keysOf_refresh (fe se : Option String) (lm : LMap) (k : String) :
    keysOf (refresh fe se lm k).1 = keysOf lm := by
  by_cases h : fe = some k
  · simp [refresh, h]
  · simp [refresh, h, setN, keysOf_updk, keysOf_link]

theorem link_none_none (lm : LMap) : link lm none none = lm := by
  simp [link]

theorem link_some_none (lm : LMap) (x : String) :
    link lm (some x) none = setP lm x none := by
  simp [link]

theorem link_none_some (lm : LMap) (y : String) :
    link lm none (some y) = setN lm y none := by
  simp [link]

theorem link_some_some (lm : LMap) (x y : String) (h : x ≠ y) :
    link lm (some x) (some y) = setN (setP lm x (some y)) y (some x) := by
  simp [link, h]

theorem refresh_eq_of_fresh (fe se : Option String) (lm : LMap) (k : String)
    (h : fe = some k) : refresh fe se lm k = (lm, fe, se) := by
  simp [refresh, h]

theorem refresh_eq_of_ne (fe se : Option String) (lm : LMap) (k : String)
    (nd : Node) (h : fe ≠ some k) (hnd : find? lm k = some nd) :
    refresh fe se lm k =
      (setN (link (link lm nd.n nd.p) (some k) fe) k none, some k,
       if se = none then some k else if se = some k then nd.n else se) := by
  simp [refresh, h, hnd]

theorem Seg_setP_frame (m : LMap) (q : String) (pv : Option String)
    (l : List String) (p x : Option String) (h : q ∉ l) :
    Seg (setP m q pv) p l x ↔ Seg m p l x :=
  Seg_updk_frame m q _ l p x h

theorem Seg_setN_frame (m : LMap) (q : String) (nv : Option String)
    (l : List String) (p x : Option String) (h : q ∉ l) :
    Seg (setN m q nv) p l x ↔ Seg m p l x :=
  Seg_updk_frame m q _ l p x h

theorem find?_setP_ne (m : LMap) (q r : String) (v : Option String)
    (h : r ≠ q) : find? (setP m q v) r = find? m r :=
  find?_updk_ne m q r _ h

theorem find?_setN_ne (m : LMap) (q r : String) (v : Option String)
    (h : r ≠ q) : find? (setN m q v) r = find? m r :=
  find?_updk_ne m q r _ h

theorem find?_setP_self (m : LMap) (q : String) (v : Option String) :
    find? (setP m q v) q = (find? m q).map (fun nd => { nd with p := v }) :=
  find?_updk_self m q _

theorem find?_setN_self (m : LMap) (q : String) (v : Option String) :
    find? (setN m q v) q = (find? m q).map (fun nd => { nd with n := v }) :=
  find?_updk_self m q _

theorem eq_nil_or_append_last {α : Type} (l : List α) :
    l = [] ∨ ∃ l2 x, l = l2 ++ [x] := by
  rcases List.eq_nil_or_concat l with h | ⟨l2, x, h⟩
  · exact Or.inl h
  · exact Or.inr ⟨l2, x, by rw [h, List.concat_eq_append]⟩

theorem nodup_split (ord : List String) (k : String) (hord : ord.Nodup)
    (hk : k ∈ ord) :
    ∃ a b, ord = a ++ k :: b ∧ k ∉ a ∧ k ∉ b ∧ a.Nodup ∧ b.Nodup ∧
      ∀ q, q ∈ a → q ∈ b → False := by
  obtain ⟨a, b, rfl⟩ := List.append_of_mem hk
  rw [List.nodup_append] at hord
  obtain ⟨ha, hkb, hdisj⟩ := hord
  rw [List.nodup_cons] at hkb
  exact ⟨a, b, rfl, fun hka => hdisj hka (List.mem_cons_self k b), hkb.1, ha,
    hkb.2, fun q hqa hqb => hdisj hqa (List.mem_cons_of_mem k hqb)⟩

/-- Core characterisation of `_refresh`: on a well-linked list `ord`
(stale to fresh) whose ends are `lastD ord none` / `headD ord none`, and a
key `k` that is either present in the list or has a fresh unlinked node,
`_refresh` rebuilds the links so that the list order becomes
`refTouch ord k` (the key moved to the fresh position), returns the new
fresh end `some k`, the new stale end (head of the touched order), and
does not change the set of node keys. -/
theorem refresh_touch (lm : LMap) (ord : List String) (k : String)
    (hseg : Seg lm none ord none) (hord : ord.Nodup)
    (hnode : k ∈ ord ∨ (find? lm k = some { p := none, n := none } ∧ k ∉ ord)) :
    Seg (refresh (lastD ord none) (headD ord none) lm k).1 none (refTouch ord k) none ∧
    (refresh (lastD ord none) (headD ord none) lm k).2.1 = some k ∧
    (refresh (lastD ord none) (headD ord none) lm k).2.2 = headD (refTouch ord k) none ∧
    keysOf (refresh (lastD ord none) (headD ord none) lm k).1 = keysOf lm := by
  by_cases hfe : lastD ord none = some k
  · rcases lastD_decomp ord none k hfe with ⟨a, rfl⟩ | ⟨_, hno⟩
    · have hka : k ∉ a := by
        rw [List.nodup_append] at hord
        exact fun hk2 => hord.2.2 hk2 (List.mem_cons_self k [])
      have hT : refTouch (a ++ [k]) k = a ++ [k] := by
        rw [refTouch, List.filter_append, filter_ne_of_not_mem a k hka]
        simp
      rw [refresh_eq_of_fresh _ _ _ _ hfe, hT]
      exact ⟨hseg, hfe, rfl, rfl⟩
    · simp at hno
  · by_cases hmem : k ∈ ord
    · obtain ⟨a, b, rfl, hka, hkb, hna, hnb, hdisj⟩ := nodup_split ord k hord hmem
      cases b with
      | nil => exact absurd (lastD_concat a k none) hfe
      | cons b0 b2 =>
        have hsplit := (Seg_append_iff lm a (k :: b0 :: b2) none none).mp hseg
        have hsa : Seg lm none a (some k) := by
          have h0 := hsplit.1
          simpa [headD] using h0
        have hsk := hsplit.2
        simp only [Seg] at hsk
        obtain ⟨⟨nd, hnd, hp, hn⟩, hsb⟩ := hsk
        simp only [headD] at hn
        obtain ⟨b3, lb, hbeq⟩ : ∃ b3 lb, b0 :: b2 = b3 ++ [lb] := by
          rcases eq_nil_or_append_last (b0 :: b2) with h0 | ⟨b3, lb, h0⟩
          · exact absurd h0 (by simp)
          · exact ⟨b3, lb, h0⟩
        have hfe2 : lastD (a ++ k :: b0 :: b2) none = some lb := by
          rw [lastD_append]
          show lastD (b0 :: b2) (some k) = some lb
          rw [hbeq, lastD_concat]
        have hlbb : lb ∈ b0 :: b2 := by
          rw [hbeq]
          exact List.mem_append_right b3 (List.mem_singleton.mpr rfl)
        have hb0b : b0 ∈ b0 :: b2 := List.mem_cons_self b0 b2
        have hkb0 : k ≠ b0 := fun he => hkb (he ▸ hb0b)
        have hklb : k ≠ lb := fun he => hkb (he ▸ hlbb)
        have hb0a : b0 ∉ a := fun hx => hdisj b0 hx hb0b
        have hlba : lb ∉ a := fun hx => hdisj lb hx hlbb
        have hb0b2 : b0 ∉ b2 := (List.nodup_cons.mp hnb).1
        have hlbb3 : lb ∉ b3 := by
          have hnb2 : (b3 ++ [lb]).Nodup := hbeq ▸ hnb
          rw [List.nodup_append] at hnb2
          exact fun hx => hnb2.2.2 hx (List.mem_singleton.mpr rfl)
        have hT : refTouch (a ++ k :: b0 :: b2) k = a ++ ((b0 :: b2) ++ [k]) := by
          rw [refTouch, List.filter_append, filter_ne_of_not_mem a k hka]
          have hc : (k :: b0 :: b2).filter (fun x => x != k) = b0 :: b2 := by
            rw [List.filter_cons_of_neg (by simp)]
            exact filter_ne_of_not_mem _ k hkb
          rw [hc, List.append_assoc]
        obtain ⟨HJ, HS1, HFK⟩ :
            Seg (link lm (some b0) (lastD a none)) (lastD a none) (b0 :: b2) none ∧
            Seg (link lm (some b0) (lastD a none)) none a (some b0) ∧
            find? (link lm (some b0) (lastD a none)) k = some nd := by
          rcases eq_nil_or_append_last a with rfl | ⟨a3, la, rfl⟩
          · simp only [lastD]
            rw [link_some_none]
            refine ⟨Seg_setP_head lm b0 b2 (some k) none none hsb hb0b2, trivial, ?_⟩
            rw [find?_setP_ne lm b0 k none hkb0, hnd]
          · have hpa2 : lastD (a3 ++ [la]) none = some la := lastD_concat a3 la none
            have hlaa : la ∈ a3 ++ [la] :=
              List.mem_append_right a3 (List.mem_singleton.mpr rfl)
            have hlab : la ∉ b0 :: b2 := fun hx => hdisj la hlaa hx
            have hlab0 : b0 ≠ la := fun he => hb0a (he ▸ hlaa)
            have hkla : k ≠ la := fun he => hka (he ▸ hlaa)
            have hlaa3 : la ∉ a3 := by
              rw [List.nodup_append] at hna
              exact fun hx => hna.2.2 hx (List.mem_singleton.mpr rfl)
            rw [hpa2, link_some_some lm b0 la hlab0]
            refine ⟨?_, ?_, ?_⟩
            · rw [Seg_setN_frame _ la (some b0) _ _ _ hlab]
              exact Seg_setP_head lm b0 b2 (some k) none (some la) hsb hb0b2
            · have h1 : Seg (setP lm b0 (some la)) none (a3 ++ [la]) (some k) := by
                rw [Seg_setP_frame _ b0 _ _ _ _ hb0a]
                exact hsa
              exact Seg_setN_last _ a3 la none (some k) (some b0) h1 hlaa3
            · rw [find?_setN_ne _ la k (some b0) hkla,
                find?_setP_ne lm b0 k (some la) hkb0, hnd]
        rw [refresh_eq_of_ne _ _ _ _ nd hfe hnd, hn, hp, hfe2, hT,
          link_some_some _ k lb hklb]
        have t1 : Seg (setP (link lm (some b0) (lastD a none)) k (some lb))
            (lastD a none) (b0 :: b2) none :=
          (Seg_setP_frame _ k (some lb) _ _ _ hkb).mpr HJ
        rw [hbeq] at t1
        have t2 := Seg_setN_last _ b3 lb (lastD a none) none (some k) t1 hlbb3
        have hkb3 : k ∉ b3 ++ [lb] := hbeq ▸ hkb
        have t3 := (Seg_setN_frame _ k none (b3 ++ [lb]) (lastD a none) (some k)
          hkb3).mpr t2
        rw [← hbeq] at t3
        have u1 := (Seg_setP_frame (link lm (some b0) (lastD a none)) k (some lb)
          a none (some b0) hka).mpr HS1
        have u2 := (Seg_setN_frame _ lb (some k) a none (some b0) hlba).mpr u1
        have u3 := (Seg_setN_frame _ k none a none (some b0) hka).mpr u2
        have f3 : find? (setN (setN (setP (link lm (some b0) (lastD a none)) k
            (some lb)) lb (some k)) k none) k = some { p := some lb, n := none } := by
          rw [find?_setN_self, find?_setN_ne _ lb k (some k) hklb,
            find?_setP_self, HFK]
          rfl
        refine ⟨?_, rfl, ?_, by simp [setN, setP, keysOf_updk, keysOf_link]⟩
        · rw [Seg_append_iff]
          constructor
          · show Seg _ none a (some b0)
            exact u3
          · rw [Seg_append_iff]
            constructor
            · show Seg _ (lastD a none) (b0 :: b2) (some k)
              exact t3
            · have hlast : lastD (b0 :: b2) (lastD a none) = some lb := by
                rw [hbeq, lastD_concat]
              rw [hlast, Seg_single_iff]
              exact ⟨{ p := some lb, n := none }, f3, rfl, rfl⟩
        · cases a with
          | nil => simp [headD]
          | cons a0 a4 =>
            have ha0 : ¬ a0 = k := fun he => hka (he ▸ List.mem_cons_self a0 a4)
            simp [headD, ha0]
    · rcases hnode with hmem2 | ⟨hndk, _⟩
      · exact absurd hmem2 hmem
      have hT : refTouch ord k = ord ++ [k] := by
        rw [refTouch, filter_ne_of_not_mem ord k hmem]
      rw [refresh_eq_of_ne _ _ _ _ { p := none, n := none } hfe hndk,
        show ({ p := none, n := none } : Node).n = (none : Option String) from rfl,
        show ({ p := none, n := none } : Node).p = (none : Option String) from rfl,
        link_none_none, hT]
      rcases eq_nil_or_append_last ord with rfl | ⟨a3, lo, rfl⟩
      · rw [show lastD ([] : List String) none = (none : Option String) from rfl,
          link_some_none]
        refine ⟨?_, rfl, rfl, by simp [setN, setP, keysOf_updk]⟩
        show Seg _ none [k] none
        rw [Seg_single_iff]
        refine ⟨{ p := none, n := none }, ?_, rfl, rfl⟩
        rw [find?_setN_self, find?_setP_self, hndk]
        rfl
      · have hpa2 : lastD (a3 ++ [lo]) none = some lo := lastD_concat a3 lo none
        have hlo : lo ∈ a3 ++ [lo] :=
          List.mem_append_right a3 (List.mem_singleton.mpr rfl)
        have hklo : k ≠ lo := fun he => hmem (he ▸ hlo)
        have hloa3 : lo ∉ a3 := by
          rw [List.nodup_append] at hord
          exact fun hx => hord.2.2 hx (List.mem_singleton.mpr rfl)
        rw [hpa2, link_some_some lm k lo hklo]
        refine ⟨?_, rfl, ?_, by simp [setN, setP, keysOf_updk]⟩
        · rw [Seg_append_iff]
          constructor
          · have h1 : Seg (setP lm k (some lo)) none (a3 ++ [lo]) none :=
              (Seg_setP_frame lm k (some lo) _ none none hmem).mpr hseg
            have h2 := Seg_setN_last _ a3 lo none none (some k) h1 hloa3
            have h3 := (Seg_setN_frame _ k none (a3 ++ [lo]) none (some k)
              hmem).mpr h2
            show Seg _ none (a3 ++ [lo]) (some k)
            exact h3
          · rw [hpa2, Seg_single_iff]
            refine ⟨{ p := some lo, n := none }, ?_, rfl, rfl⟩
            rw [find?_setN_self, find?_setN_ne _ lo k (some k) hklo,
              find?_setP_self, hndk]
            rfl
        · cases a3 with
          | nil => simp [headD, hklo, Ne.symm hklo]
          | cons a0 a4 =>
            have ha0 : ¬ a0 = k := fun he =>
              hmem (he ▸ List.mem_append_left [lo] (List.mem_cons_self a0 a4))
            simp [headD, ha0]

/-! ### The between-operations invariant of a live cache instance -/

/-- `Good st dm lm ord` : the live state `st` has entry store `dm` and LRU
hash `lm`, and the doubly-linked list through `lm` spells out exactly the
recency order `ord` (least-recently touched first): both key sets equal
`ord`, the links are well-formed, the ends are the ends of `ord`, and the
`size` counter is the number of entries. -/
structure Good (st : CacheState) (dm : DMap) (lm : LMap) (ord : List String) :
    Prop where
  hdata : st.data = some dm
  hlru : st.lruHash = some lm
  hdnodup : (keysOf dm).Nodup
  hlnodup : (keysOf lm).Nodup
  hdkeys : ∀ q, (find? dm q).isSome = true ↔ q ∈ ord
  hlkeys : ∀ q, (find? lm q).isSome = true ↔ q ∈ ord
  hseg : Seg lm none ord none
  hfe : st.freshEnd = lastD ord none
  hse : st.staleEnd = headD ord none
  hord : ord.Nodup
  hsize : st.size = (ord.length : Int)

theorem find?_updk_isSome {α : Type} (m : List (String × α)) (k q : String)
    (f : α → α) : (find? (updk m k f) q).isSome = (find? m q).isSome := by
  by_cases h : q = k
  · subst h
    rw [find?_updk_self]
    cases find? m q <;> rfl
  · rw [find?_updk_ne m k q f h]

theorem find?_link_isSome (lm : LMap) (a b : Option String) (q : String) :
    (find? (link lm a b) q).isSome = (find? lm q).isSome := by
  by_cases h : a = b
  · simp [link, h]
  · cases a <;> cases b <;>
      simp [link, h, setP, setN, find?_updk_isSome]

theorem Seg_erasek_frame (m : LMap) (k : String) (l : List String)
    (p x : Option String) (h : k ∉ l) : Seg (erasek m k) p l x ↔ Seg m p l x := by
  constructor
  · intro hs
    exact Seg_congrOn (erasek m k) m l p x
      (fun r hr => (find?_erasek_ne m k r (fun he => h (he ▸ hr))).symm) hs
  · intro hs
    exact Seg_congrOn m (erasek m k) l p x
      (fun r hr => find?_erasek_ne m k r (fun he => h (he ▸ hr))) hs

theorem mem_filter_ne (l : List String) (k q : String) :
    q ∈ l.filter (fun x => x != k) ↔ q ∈ l ∧ q ≠ k := by
  simp [List.mem_filter, bne_iff_ne]

theorem filter_ne_split (a b : List String) (k : String) (hka : k ∉ a)
    (hkb : k ∉ b) : (a ++ k :: b).filter (fun x => x != k) = a ++ b := by
  rw [List.filter_append, filter_ne_of_not_mem a k hka,
    List.filter_cons_of_neg (by simp), filter_ne_of_not_mem b k hkb]

/-- `remove` on a present key: the exact new state (links repaired, both
ends handed over, entry deleted, size decremented) and the invariant with
the key dropped from the recency order. -/
theorem removeOp_good (st : CacheState) (dm : DMap) (lm : LMap)
    (ord : List String) (k : String) (hG : Good st dm lm ord) (hk : k ∈ ord) :
    ∃ lm2, removeOp st k =
      ({ st with lruHash := some lm2, data := some (erasek dm k),
                 freshEnd := lastD (ord.filter (fun x => x != k)) none,
                 staleEnd := headD (ord.filter (fun x => x != k)) none,
                 size := st.size - 1 }, .ok ()) ∧
      Good { st with lruHash := some lm2, data := some (erasek dm k),
                     freshEnd := lastD (ord.filter (fun x => x != k)) none,
                     staleEnd := headD (ord.filter (fun x => x != k)) none,
                     size := st.size - 1 } (erasek dm k) lm2
        (ord.filter (fun x => x != k)) := by
  obtain ⟨a, b, rfl, hka, hkb, hna, hnb, hdisj⟩ := nodup_split ord k hG.hord hk
  have hfilter := filter_ne_split a b k hka hkb
  have hsplit := (Seg_append_iff lm a (k :: b) none none).mp hG.hseg
  have hsa : Seg lm none a (some k) := by
    have h0 := hsplit.1
    simpa [headD] using h0
  have hsk := hsplit.2
  simp only [Seg] at hsk
  obtain ⟨⟨nd, hnd, hp, hn⟩, hsb⟩ := hsk
  have hn2 : nd.n = headD b none := hn
  refine ⟨erasek (link lm (headD b none) (lastD a none)) k, ?_, ?_⟩
  · have hfe2 : (if lastD (a ++ k :: b) none = some k then nd.p
        else lastD (a ++ k :: b) none) = lastD (a ++ b) none := by
      rcases eq_nil_or_append_last b with rfl | ⟨b3, lb, rfl⟩
      · rw [if_pos (lastD_concat a k none), hp]
        simp [lastD_append, lastD]
      · have hlb : lastD (a ++ k :: (b3 ++ [lb])) none = some lb := by
          rw [lastD_append]
          show lastD (k :: (b3 ++ [lb])) (lastD a none) = some lb
          rw [show k :: (b3 ++ [lb]) = (k :: b3) ++ [lb] from rfl, lastD_concat]
        have hlbk : lb ∈ b3 ++ [lb] :=
          List.mem_append_right b3 (List.mem_singleton.mpr rfl)
        have hne : ¬ lastD (a ++ k :: (b3 ++ [lb])) none = some k := by
          rw [hlb]
          exact fun he => hkb (by
            injection he with he2
            exact he2 ▸ hlbk)
        rw [if_neg hne, hlb, lastD_append, lastD_concat]
    have hse2 : (if headD (a ++ k :: b) none = some k then nd.n
        else headD (a ++ k :: b) none) = headD (a ++ b) none := by
      cases a with
      | nil =>
        rw [if_pos (by simp [headD]), hn2]
        rfl
      | cons a0 a4 =>
        have ha0 : ¬ a0 = k := fun he => hka (he ▸ List.mem_cons_self a0 a4)
        rw [if_neg (by simp [headD, ha0])]
        rfl
    simp only [removeOp, hG.hlru, hnd, hG.hdata]
    rw [hG.hfe, hG.hse, hfe2, hse2, hfilter, hn, hp]
  · have hkab : k ∉ a ++ b := by
      simp only [List.mem_append]
      rintro (h1 | h1)
      · exact hka h1
      · exact hkb h1
    have hsegNew : Seg (link lm (headD b none) (lastD a none)) none (a ++ b)
        none := by
      rw [Seg_append_iff]
      constructor
      · rcases eq_nil_or_append_last a with rfl | ⟨a3, la, rfl⟩
        · trivial
        · have hlaa : la ∈ a3 ++ [la] :=
            List.mem_append_right a3 (List.mem_singleton.mpr rfl)
          have hlaa3 : la ∉ a3 := by
            rw [List.nodup_append] at hna
            exact fun hx => hna.2.2 hx (List.mem_singleton.mpr rfl)
          rw [lastD_concat]
          cases b with
          | nil =>
            rw [show headD [] none = (none : Option String) from rfl,
              link_none_some]
            show Seg _ none (a3 ++ [la]) (headD [] none)
            exact Seg_setN_last lm a3 la none (some k) none hsa hlaa3
          | cons b0 b2 =>
            have hb0b : b0 ∈ b0 :: b2 := List.mem_cons_self b0 b2
            have hb0a : b0 ∉ a3 ++ [la] := fun hx => hdisj b0 hx hb0b
            have hb0la : b0 ≠ la := fun he => hb0a (he ▸ hlaa)
            rw [show headD (b0 :: b2) none = some b0 from rfl,
              link_some_some lm b0 la hb0la]
            show Seg _ none (a3 ++ [la]) (headD (b0 :: b2) none)
            rw [show headD (b0 :: b2) none = some b0 from rfl]
            have h1 : Seg (setP lm b0 (some la)) none (a3 ++ [la]) (some k) :=
              (Seg_setP_frame lm b0 (some la) _ none (some k) hb0a).mpr hsa
            exact Seg_setN_last _ a3 la none (some k) (some b0) h1 hlaa3
      · cases b with
        | nil => trivial
        | cons b0 b2 =>
          have hb0b2 : b0 ∉ b2 := (List.nodup_cons.mp hnb).1
          rcases eq_nil_or_append_last a with rfl | ⟨a3, la, rfl⟩
          · rw [show lastD ([] : List String) none = (none : Option String)
              from rfl, show headD (b0 :: b2) none = some b0 from rfl,
              link_some_none]
            exact Seg_setP_head lm b0 b2 (some k) none none hsb hb0b2
          · have hlaa : la ∈ a3 ++ [la] :=
              List.mem_append_right a3 (List.mem_singleton.mpr rfl)
            have hlab : la ∉ b0 :: b2 := fun hx => hdisj la hlaa hx
            have hb0a : b0 ∉ a3 ++ [la] :=
              fun hx => hdisj b0 hx (List.mem_cons_self b0 b2)
            have hb0la : b0 ≠ la := fun he => hb0a (he ▸ hlaa)
            rw [show headD (b0 :: b2) none = some b0 from rfl,
              lastD_concat, link_some_some lm b0 la hb0la]
            rw [Seg_setN_frame _ la (some b0) _ _ _ hlab]
            exact Seg_setP_head lm b0 b2 (some k) none (some la) hsb hb0b2
    refine ⟨rfl, rfl, keysOf_erasek_nodup dm k hG.hdnodup, ?_, ?_, ?_, ?_,
      rfl, rfl, ?_, ?_⟩
    · have h1 : keysOf (erasek (link lm (headD b none) (lastD a none)) k) =
          keysOf (erasek (link lm (headD b none) (lastD a none)) k) := rfl
      have h2 := keysOf_erasek_nodup (link lm (headD b none) (lastD a none)) k
      apply h2
      have h3 : keysOf (link lm (headD b none) (lastD a none)) = keysOf lm :=
        keysOf_link lm (headD b none) (lastD a none)
      rw [h3]
      exact hG.hlnodup
    · intro q
      by_cases hq : q = k
      · subst hq
        rw [find?_erasek_self dm q hG.hdnodup]
        simpa [hfilter] using hkab
      · rw [find?_erasek_ne dm k q hq, hfilter]
        rw [hG.hdkeys q]
        simp only [List.mem_append, List.mem_cons]
        constructor
        · rintro (h1 | h1 | h1)
          · exact Or.inl h1
          · exact absurd h1 hq
          · exact Or.inr h1
        · rintro (h1 | h1)
          · exact Or.inl h1
          · exact Or.inr (Or.inr h1)
    · intro q
      by_cases hq : q = k
      · subst hq
        have h1 : (keysOf (link lm (headD b none) (lastD a none))).Nodup := by
          rw [keysOf_link]
          exact hG.hlnodup
        rw [find?_erasek_self _ q h1]
        simpa [hfilter] using hkab
      · rw [find?_erasek_ne _ k q hq, hfilter, find?_link_isSome]
        rw [hG.hlkeys q]
        simp only [List.mem_append, List.mem_cons]
        constructor
        · rintro (h1 | h1 | h1)
          · exact Or.inl h1
          · exact absurd h1 hq
          · exact Or.inr h1
        · rintro (h1 | h1)
          · exact Or.inl h1
          · exact Or.inr (Or.inr h1)
    · rw [hfilter]
      rw [Seg_erasek_frame _ k _ none none hkab]
      exact hsegNew
    · exact hG.hord.filter _
    · rw [hG.hsize, hfilter]
      have hlen : (a ++ k :: b).length = (a ++ b).length + 1 := by
        simp only [List.length_append, List.length_cons]
        omega
      rw [hlen]
      push_cast
      ring

/-! ### Facts about the touched reference order -/

theorem Seg_setk_frame (m : LMap) (k : String) (v : Node) (l : List String)
    (p x : Option String) (h : k ∉ l) :
    Seg (setk m k v) p l x ↔ Seg m p l x := by
  constructor
  · intro hs
    exact Seg_congrOn (setk m k v) m l p x
      (fun r hr => (find?_setk_ne m k r v (fun he => h (he ▸ hr))).symm) hs
  · intro hs
    exact Seg_congrOn m (setk m k v) l p x
      (fun r hr => find?_setk_ne m k r v (fun he => h (he ▸ hr))) hs

theorem mem_refTouch (ord : List String) (k q : String) :
    q ∈ refTouch ord k ↔ q ∈ ord ∨ q = k := by
  rw [refTouch]
  simp only [List.mem_append, mem_filter_ne, List.mem_singleton]
  constructor
  · rintro (⟨h1, _⟩ | h1)
    · exact Or.inl h1
    · exact Or.inr h1
  · rintro (h1 | h1)
    · by_cases hq : q = k
      · exact Or.inr hq
      · exact Or.inl ⟨h1, hq⟩
    · exact Or.inr h1

theorem refTouch_nodup (ord : List String) (k : String) (h : ord.Nodup) :
    (refTouch ord k).Nodup := by
  rw [refTouch, List.nodup_append]
  refine ⟨h.filter _, List.nodup_singleton k, ?_⟩
  intro q hq hq2
  rw [List.mem_singleton] at hq2
  rw [mem_filter_ne] at hq
  exact hq.2 hq2

theorem lastD_refTouch (ord : List String) (k : String) :
    lastD (refTouch ord k) none = some k :=
  lastD_concat _ k none

theorem k_mem_refTouch (ord : List String) (k : String) : k ∈ refTouch ord k :=
  List.mem_append_right _ (List.mem_singleton.mpr rfl)

theorem length_refTouch_not_mem (ord : List String) (k : String)
    (h : k ∉ ord) : (refTouch ord k).length = ord.length + 1 := by
  rw [refTouch, filter_ne_of_not_mem ord k h]
  simp

theorem length_refTouch_mem (ord : List String) (k : String)
    (hord : ord.Nodup) (h : k ∈ ord) :
    (refTouch ord k).length = ord.length := by
  obtain ⟨a, b, rfl, hka, hkb, _, _, _⟩ := nodup_split ord k hord h
  rw [refTouch, filter_ne_split a b k hka hkb]
  simp only [List.length_append, List.length_cons, List.length_nil]
  omega

theorem head_filter_self (h : String) (t : List String) (hn : (h :: t).Nodup) :
    (h :: t).filter (fun x => x != h) = t := by
  rw [List.filter_cons_of_neg (by simp)]
  exact filter_ne_of_not_mem t h (List.nodup_cons.mp hn).1

/-- Validity of a key/option pair for the reference capacity rule. -/
def CapOk (cfg : Config) : Prop :=
  match cfg.capacity with
  | some c => 0 < c
  | none => True

/-- The per-call maxAge values accepted by `_validateMaxAge`. -/
def MxOk (mx : Option Int) : Prop :=
  match mx with
  | some m => 0 ≤ m
  | none => True

/-- One step of the independent reference LRU cache model: touch the key,
then drop the least-recent element when the capacity is exceeded. -/
def refPut (cap : Option Int) (ord : List String) (k : String) : List String :=
  let t := refTouch ord k
  if (match cap with
      | some c => decide ((t.length : Int) > c)
      | none => false) then t.drop 1 else t

theorem MxOk_not_invalid (mx : Option Int) (h : MxOk mx) :
    ¬(numTruthy mx = true ∧ mx.getD 0 < 0) := by
  rintro ⟨h1, h2⟩
  cases mx with
  | none => simp [Option.getD] at h2
  | some m =>
    rw [MxOk] at h
    simp [Option.getD] at h2
    omega

/-- The capacity-enforcement tail of `put`, on a well-formed state whose
fresh end is `k` (the key just written): it never throws, evicts exactly
the stale-end key when the counter exceeds the capacity, and keeps the
entry of `k`. -/
theorem putTail_good (st4 : CacheState) (dmF : DMap) (lmF : LMap)
    (t : List String) (cfg : Config) (v : Val) (k : String) (size2 : Int)
    (hG : Good st4 dmF lmF t) (hsz : size2 = (t.length : Int))
    (hcap : CapOk cfg) (hlastk : lastD t none = some k)
    (hval : ∃ e, find? dmF k = some e ∧ e.value = v) :
    ∃ st2 dm2 lm2, putTail st4 cfg.capacity size2 v = (st2, .ok (some v)) ∧
      Good st2 dm2 lm2
        (if (match cfg.capacity with
             | some c => decide (size2 > c)
             | none => false) = true then t.drop 1 else t) ∧
      st2.config = st4.config ∧
      (∃ e, find? dm2 k = some e ∧ e.value = v) := by
  by_cases hover : (match cfg.capacity with
      | some c => decide (size2 > c)
      | none => false) = true
  · obtain ⟨c, hc, hgt⟩ : ∃ c, cfg.capacity = some c ∧ size2 > c := by
      cases hcap2 : cfg.capacity with
      | none => rw [hcap2] at hover; simp at hover
      | some c =>
        rw [hcap2] at hover
        simp only [decide_eq_true_eq] at hover
        exact ⟨c, rfl, hover⟩
    have hcpos : 0 < c := by
      have := hcap
      rw [CapOk, hc] at this
      exact this
    have hlen : 2 ≤ t.length := by
      have h1 : (2 : Int) ≤ (t.length : Int) := by omega
      exact_mod_cast h1
    obtain ⟨h0, t0, rfl⟩ : ∃ h0 t0, t = h0 :: t0 := by
      cases t with
      | nil => simp at hlen
      | cons h0 t0 => exact ⟨h0, t0, rfl⟩
    have ht0ne : t0 ≠ [] := by
      intro he
      rw [he] at hlen
      simp at hlen
    obtain ⟨t3, rfl⟩ : ∃ t3, t0 = t3 ++ [k] := by
      have h1 : lastD t0 (some h0) = some k := hlastk
      rcases lastD_decomp t0 (some h0) k h1 with ⟨t3, h2⟩ | ⟨h2, _⟩
      · exact ⟨t3, h2⟩
      · exact absurd h2 ht0ne
    have hh0k : h0 ≠ k := by
      have hn := hG.hord
      rw [List.nodup_cons] at hn
      exact fun he => hn.1 (he ▸ List.mem_append_right t3 (List.mem_singleton.mpr rfl))
    obtain ⟨lm2, heq2, hGood2⟩ :=
      removeOp_good st4 dmF lmF (h0 :: (t3 ++ [k])) h0 hG
        (List.mem_cons_self h0 _)
    have hfilt : (h0 :: (t3 ++ [k])).filter (fun x => x != h0) = t3 ++ [k] :=
      head_filter_self h0 _ hG.hord
    rw [hfilt] at heq2 hGood2
    rw [putTail.eq_def, if_pos hover, hG.hse,
      show headD (h0 :: (t3 ++ [k])) none = some h0 from rfl]
    have heq3 : (removeOp st4 h0).1 =
        { st4 with data := some (erasek dmF h0), lruHash := some lm2,
                   freshEnd := lastD (t3 ++ [k]) none,
                   staleEnd := headD (t3 ++ [k]) none, size := st4.size - 1 } := by
      rw [heq2]
    refine ⟨{ st4 with data := some (erasek dmF h0), lruHash := some lm2,
                       freshEnd := lastD (t3 ++ [k]) none,
                       staleEnd := headD (t3 ++ [k]) none,
                       size := st4.size - 1 },
      erasek dmF h0, lm2, ?_, ?_, rfl, ?_⟩
    · show ((removeOp st4 h0).1, Except.ok (some v)) = _
      rw [heq3]
    · rw [if_pos hover]
      exact hGood2
    · obtain ⟨e, he1, he2⟩ := hval
      exact ⟨e, by rw [find?_erasek_ne dmF h0 k (Ne.symm hh0k), he1], he2⟩
  · rw [putTail.eq_def, if_neg hover]
    refine ⟨st4, dmF, lmF, rfl, ?_, rfl, hval⟩
    rw [if_neg hover]
    exact hG

/-- `put` with a string key, a defined value and a valid per-call maxAge on
a live well-formed cache: it never throws, it returns the value, it stores
the value under the key, and it transforms the recency order exactly as
the reference capped LRU model `refPut` does (touch, then evict the stale
end on overflow). -/
theorem put_ok_good (st : CacheState) (dm : DMap) (lm : LMap)
    (ord : List String) (cfg : Config) (k : String) (v : Val) (mx : Option Int)
    (hG : Good st dm lm ord) (hcfg : st.config = some cfg)
    (hcap : CapOk cfg) (hmx : MxOk mx) :
    ∃ st2 dm2 lm2, put st (.str k) (some v) mx = (st2, .ok (some v)) ∧
      Good st2 dm2 lm2 (refPut cfg.capacity ord k) ∧
      st2.config = some cfg ∧
      (∃ e, find? dm2 k = some e ∧ e.value = v) := by
  have hvd := MxOk_not_invalid mx hmx
  obtain ⟨lmE, hens, hEnodup, hEkeys, hA1, hA2, hA3, hA4⟩ :
      ∃ lmE, ensureNode lm k = lmE ∧ (keysOf lmE).Nodup ∧
        (∀ q, (find? lmE q).isSome = true ↔ q ∈ refTouch ord k) ∧
        Seg (refresh (lastD ord none) (headD ord none) lmE k).1 none
          (refTouch ord k) none ∧
        (refresh (lastD ord none) (headD ord none) lmE k).2.1 = some k ∧
        (refresh (lastD ord none) (headD ord none) lmE k).2.2 =
          headD (refTouch ord k) none ∧
        keysOf (refresh (lastD ord none) (headD ord none) lmE k).1 =
          keysOf lmE := by
    by_cases hkm : k ∈ ord
    · obtain ⟨hB1, hB2, hB3, hB4⟩ :=
        refresh_touch lm ord k hG.hseg hG.hord (Or.inl hkm)
      refine ⟨lm, ?_, hG.hlnodup, ?_, hB1, hB2, hB3, hB4⟩
      · rw [ensureNode]
        cases hf : find? lm k with
        | none =>
          have h1 := (hG.hlkeys k).mpr hkm
          rw [hf] at h1
          simp at h1
        | some nd => rfl
      · intro q
        rw [hG.hlkeys q, mem_refTouch]
        constructor
        · exact Or.inl
        · rintro (h1 | h1)
          · exact h1
          · exact h1 ▸ hkm
    · have hf : find? lm k = none := by
        cases hf : find? lm k with
        | none => rfl
        | some nd => exact absurd ((hG.hlkeys k).mp (by simp [hf])) hkm
      obtain ⟨hB1, hB2, hB3, hB4⟩ :=
        refresh_touch (setk lm k { p := none, n := none }) ord k
          ((Seg_setk_frame lm k _ ord none none hkm).mpr hG.hseg) hG.hord
          (Or.inr ⟨find?_setk_self lm k _, hkm⟩)
      refine ⟨setk lm k { p := none, n := none }, by rw [ensureNode, hf],
        keysOf_setk_nodup lm k _ hG.hlnodup, ?_, hB1, hB2, hB3, hB4⟩
      intro q
      by_cases hq : q = k
      · subst hq
        simp only [find?_setk_self, Option.isSome_some, true_iff]
        exact k_mem_refTouch ord q
      · rw [find?_setk_ne lm k q _ hq, hG.hlkeys q, mem_refTouch]
        constructor
        · exact Or.inl
        · rintro (h1 | h1)
          · exact h1
          · exact absurd h1 hq
  have hdm1nodup : (keysOf (setk dm k { value := v })).Nodup :=
    keysOf_setk_nodup dm k _ hG.hdnodup
  have hdm1keys : ∀ q, (find? (setk dm k { value := v }) q).isSome = true ↔
      q ∈ refTouch ord k := by
    intro q
    by_cases hq : q = k
    · subst hq
      simp only [find?_setk_self, Option.isSome_some, true_iff]
      exact k_mem_refTouch ord q
    · rw [find?_setk_ne dm k q _ hq, hG.hdkeys q, mem_refTouch]
      constructor
      · exact Or.inl
      · rintro (h1 | h1)
        · exact h1
        · exact absurd h1 hq
  have hsize2 : (if (find? dm k).isSome = true then st.size else st.size + 1) =
      ((refTouch ord k).length : Int) := by
    cases hfd : find? dm k with
    | some e =>
      have hkm : k ∈ ord := (hG.hdkeys k).mp (by simp [hfd])
      rw [if_pos (by simp), hG.hsize, length_refTouch_mem ord k hG.hord hkm]
    | none =>
      have hkm : k ∉ ord := fun hx => by
        have h1 := (hG.hdkeys k).mpr hx
        rw [hfd] at h1
        simp at h1
      rw [if_neg (by simp), hG.hsize, length_refTouch_not_mem ord k hkm]
      push_cast
      ring
  have hlastk : lastD (refTouch ord k) none = some k := lastD_refTouch ord k
  have hGoodMid : ∀ (dmF : DMap) (ts : List Timeout) (ntid : Nat),
      (keysOf dmF).Nodup →
      (∀ q, (find? dmF q).isSome = true ↔ q ∈ refTouch ord k) →
      Good { st with
             lruHash := some (refresh (lastD ord none) (headD ord none) lmE k).1,
             freshEnd := (refresh (lastD ord none) (headD ord none) lmE k).2.1,
             staleEnd := (refresh (lastD ord none) (headD ord none) lmE k).2.2,
             data := some dmF, size := ((refTouch ord k).length : Int),
             timeouts := ts, nextTimerId := ntid }
        dmF (refresh (lastD ord none) (headD ord none) lmE k).1
        (refTouch ord k) := by
    intro dmF ts ntid hnod hkeys
    refine ⟨rfl, rfl, hnod, ?_, hkeys, ?_, hA1, ?_, hA3,
      refTouch_nodup ord k hG.hord, rfl⟩
    · rw [hA4]
      exact hEnodup
    · intro q
      rw [find?_isSome_iff_mem, hA4, ← find?_isSome_iff_mem]
      exact hEkeys q
    · show (refresh (lastD ord none) (headD ord none) lmE k).2.1 =
        lastD (refTouch ord k) none
      rw [hA2, hlastk]
  cases htimer : numTruthy cfg.maxAge || numTruthy mx with
  | false =>
    have heq : put st (.str k) (some v) mx =
        putTail
          { st with
            lruHash := some (refresh (lastD ord none) (headD ord none) lmE k).1,
            freshEnd := (refresh (lastD ord none) (headD ord none) lmE k).2.1,
            staleEnd := (refresh (lastD ord none) (headD ord none) lmE k).2.2,
            data := some (setk dm k { value := v }),
            size := ((refTouch ord k).length : Int) }
          cfg.capacity ((refTouch ord k).length : Int) v := by
      simp only [put, hG.hlru, JKey.toStr, JKey.isString, Bool.true_eq_false,
        if_false, hens, hG.hdata, hcfg, htimer, Bool.false_eq_true]
      rw [if_neg hvd, hG.hfe, hG.hse, hsize2]
    obtain ⟨st2, dm2, lm2, htail, hGd, hcfg2, hval2⟩ :=
      putTail_good _ (setk dm k { value := v })
        (refresh (lastD ord none) (headD ord none) lmE k).1
        (refTouch ord k) cfg v k ((refTouch ord k).length : Int)
        (hGoodMid _ st.timeouts st.nextTimerId hdm1nodup hdm1keys) rfl hcap
        hlastk ⟨{ value := v }, find?_setk_self dm k _, rfl⟩
    refine ⟨st2, dm2, lm2, ?_, ?_, hcfg2.trans hcfg, hval2⟩
    · rw [heq]
      exact htail
    · exact hGd
  | true =>
    have hb : find? (updk (setk dm k { value := v }) k
        (fun e => { e with timestamp := some st.now })) k =
        some { value := v, timestamp := some st.now, timeoutId := none } := by
      rw [find?_updk_self, find?_setk_self]
      rfl
    have heq : put st (.str k) (some v) mx =
        putTail
          { st with
            lruHash := some (refresh (lastD ord none) (headD ord none) lmE k).1,
            freshEnd := (refresh (lastD ord none) (headD ord none) lmE k).2.1,
            staleEnd := (refresh (lastD ord none) (headD ord none) lmE k).2.2,
            data := some (updk (updk (setk dm k { value := v }) k
              (fun e => { e with timestamp := some st.now })) k
              (fun e => { e with timeoutId := some st.nextTimerId })),
            size := ((refTouch ord k).length : Int),
            timeouts := st.timeouts ++
              [{ id := st.nextTimerId, key := k,
                 fireAt := st.now + (if numTruthy mx = true then mx.getD 0
                   else cfg.maxAge.getD 0).toNat }],
            nextTimerId := st.nextTimerId + 1 }
          cfg.capacity ((refTouch ord k).length : Int) v := by
      have hb2 : (Option.bind (some (Entry.mk v (some st.now) none))
          fun e => e.timeoutId) = (none : Option Nat) := rfl
      simp only [put, hG.hlru, JKey.toStr, JKey.isString, Bool.true_eq_false,
        if_false, hens, hG.hdata, hcfg, htimer, if_true, hb, hb2]
      rw [if_neg hvd, hG.hfe, hG.hse, hsize2]
    have hdmTnodup : (keysOf (updk (updk (setk dm k { value := v }) k
        (fun e => { e with timestamp := some st.now })) k
        (fun e => { e with timeoutId := some st.nextTimerId }))).Nodup := by
      rw [keysOf_updk, keysOf_updk]
      exact hdm1nodup
    have hdmTkeys : ∀ q, (find? (updk (updk (setk dm k { value := v }) k
        (fun e => { e with timestamp := some st.now })) k
        (fun e => { e with timeoutId := some st.nextTimerId })) q).isSome =
        true ↔ q ∈ refTouch ord k := by
      intro q
      rw [find?_updk_isSome, find?_updk_isSome]
      exact hdm1keys q
    have hvalT : find? (updk (updk (setk dm k { value := v }) k
        (fun e => { e with timestamp := some st.now })) k
        (fun e => { e with timeoutId := some st.nextTimerId })) k =
        some { value := v, timestamp := some st.now,
               timeoutId := some st.nextTimerId } := by
      rw [find?_updk_self, hb]
      rfl
    obtain ⟨st2, dm2, lm2, htail, hGd, hcfg2, hval2⟩ :=
      putTail_good _ _
        (refresh (lastD ord none) (headD ord none) lmE k).1
        (refTouch ord k) cfg v k ((refTouch ord k).length : Int)
        (hGoodMid _ (st.timeouts ++
            [{ id := st.nextTimerId, key := k,
               fireAt := st.now + (if numTruthy mx = true then mx.getD 0
                 else cfg.maxAge.getD 0).toNat }])
          (st.nextTimerId + 1) hdmTnodup hdmTkeys) rfl hcap
        hlastk ⟨_, hvalT, rfl⟩
    refine ⟨st2, dm2, lm2, ?_, ?_, hcfg2.trans hcfg, hval2⟩
    · rw [heq]
      exact htail
    · exact hGd

/-! ### The remaining operations preserve the invariant -/

theorem removeOp_absent (st : CacheState) (lm : LMap) (k : String)
    (hlru : st.lruHash = some lm) (hf : find? lm k = none) :
    removeOp st k = (st, .ok ()) := by
  simp [removeOp, hlru, hf]

theorem getOp_not_mem (st : CacheState) (lm : LMap) (k : String)
    (hlru : st.lruHash = some lm) (hf : find? lm k = none) :
    getOp st k = (st, .ok none) := by
  simp [getOp, hlru, hf]

/-- `get` on a present key: refreshes the key to the fresh end and returns
its stored value; the entry store itself is untouched. -/
theorem getOp_good (st : CacheState) (dm : DMap) (lm : LMap)
    (ord : List String) (k : String) (hG : Good st dm lm ord) (hk : k ∈ ord) :
    ∃ e, find? dm k = some e ∧
      getOp st k =
        ({ st with
           lruHash := some (refresh (lastD ord none) (headD ord none) lm k).1,
           freshEnd := (refresh (lastD ord none) (headD ord none) lm k).2.1,
           staleEnd := (refresh (lastD ord none) (headD ord none) lm k).2.2 },
         .ok (some e.value)) ∧
      Good { st with
             lruHash := some (refresh (lastD ord none) (headD ord none) lm k).1,
             freshEnd := (refresh (lastD ord none) (headD ord none) lm k).2.1,
             staleEnd := (refresh (lastD ord none) (headD ord none) lm k).2.2 }
        dm (refresh (lastD ord none) (headD ord none) lm k).1
        (refTouch ord k) := by
  obtain ⟨nd, hnd⟩ : ∃ nd, find? lm k = some nd := by
    have h1 := (hG.hlkeys k).mpr hk
    cases hf : find? lm k with
    | none => rw [hf] at h1; simp at h1
    | some nd => exact ⟨nd, rfl⟩
  obtain ⟨e, he⟩ : ∃ e, find? dm k = some e := by
    have h1 := (hG.hdkeys k).mpr hk
    cases hf : find? dm k with
    | none => rw [hf] at h1; simp at h1
    | some e => exact ⟨e, rfl⟩
  obtain ⟨hA1, hA2, hA3, hA4⟩ :=
    refresh_touch lm ord k hG.hseg hG.hord (Or.inl hk)
  refine ⟨e, he, ?_, ?_⟩
  · simp only [getOp, hG.hlru, hnd, hG.hdata, he]
    rw [hG.hfe, hG.hse]
  · refine ⟨hG.hdata, rfl, hG.hdnodup, ?_, ?_, ?_, hA1, ?_, hA3,
      refTouch_nodup ord k hG.hord, ?_⟩
    · rw [hA4]
      exact hG.hlnodup
    · intro q
      rw [hG.hdkeys q, mem_refTouch]
      constructor
      · exact Or.inl
      · rintro (h1 | h1)
        · exact h1
        · exact h1 ▸ hk
    · intro q
      rw [find?_isSome_iff_mem, hA4, ← find?_isSome_iff_mem, hG.hlkeys q,
        mem_refTouch]
      constructor
      · exact Or.inl
      · rintro (h1 | h1)
        · exact h1
        · exact h1 ▸ hk
    · show (refresh (lastD ord none) (headD ord none) lm k).2.1 =
        lastD (refTouch ord k) none
      rw [hA2, lastD_refTouch]
    · show st.size = ((refTouch ord k).length : Int)
      rw [hG.hsize, length_refTouch_mem ord k hG.hord hk]

theorem empty_state_good (cfg : Option Config) (ts : List Timeout)
    (ntid n : Nat) :
    Good { config := cfg, data := some [], lruHash := some [],
           freshEnd := none, staleEnd := none, size := 0, timeouts := ts,
           nextTimerId := ntid, now := n } [] [] [] := by
  refine ⟨rfl, rfl, by simp [keysOf], by simp [keysOf], ?_, ?_, trivial, rfl,
    rfl, by simp, rfl⟩
  · intro q
    simp [find?]
  · intro q
    simp [find?]

/-- C8 counterexample: after `put('a', undefined)` as the only call for
"a" on a fresh cache, `get('a')` does not return absent — the phantom LRU
node makes `data[key].value` a property access on `undefined`, so the call
throws a TypeError. -/
theorem get_after_sentinel_put_typeerror_cex :
    (getOp c5s1 "a").2 = .error .typeErr := rfl

theorem mem_refPut_self (cfg : Config) (hcap : CapOk cfg) (ord : List String)
    (k : String) : k ∈ refPut cfg.capacity ord k := by
  rw [refPut.eq_def]
  dsimp only
  cases hc : cfg.capacity with
  | none =>
    rw [if_neg (by simp)]
    rw [mem_refTouch]
    exact Or.inr rfl
  | some c =>
    have hcpos : 0 < c := by
      have h1 := hcap
      rw [CapOk, hc] at h1
      exact h1
    by_cases hlen : ((refTouch ord k).length : Int) > c
    · rw [if_pos (by simp only [decide_eq_true_eq]; exact hlen)]
      have hflen : 1 ≤ (ord.filter (fun x => x != k)).length := by
        have h2 : 2 ≤ (refTouch ord k).length := by omega
        rw [refTouch, List.length_append, List.length_cons,
          List.length_nil] at h2
        omega
      rw [refTouch, List.drop_append_of_le_length hflen, List.mem_append,
        List.mem_singleton]
      exact Or.inr rfl
    · rw [if_neg (by simp only [decide_eq_true_eq]; exact hlen)]
      rw [mem_refTouch]
      exact Or.inr rfl

/-- C8: amended get/put/remove semantics. On a well-formed cache, for a
DEFINED value v with valid maxAge: put(k, v) succeeds and a get(k)
immediately after returns v; get(k) immediately after remove(k) returns
absent; and get(k) on a key with no LRU node returns absent. The original
claim's sentinel clause is refuted by the counterexample: a sentinel put
leaves a phantom LRU node and the next get throws a TypeError instead of
returning absent. -/
theorem get_put_remove_semantics (st : CacheState) (dm : DMap) (lm : LMap)
    (ord : List String) (cfg : Config) (k : String) (v : Val) (mx : Option Int)
    (hG : Good st dm lm ord) (hcfg : st.config = some cfg)
    (hcap : CapOk cfg) (hmx : MxOk mx) :
    ((put st (.str k) (some v) mx).2 = .ok (some v) ∧
      (getOp (put st (.str k) (some v) mx).1 k).2 = .ok (some v)) ∧
    (getOp (removeOp st k).1 k).2 = .ok none ∧
    (k ∉ ord → (getOp st k).2 = .ok none) := by
  refine ⟨?_, ?_, ?_⟩
  · obtain ⟨st2, dm2, lm2, heq, hGd, hcfg2, e, he, hev⟩ :=
      put_ok_good st dm lm ord cfg k v mx hG hcfg hcap hmx
    rw [heq]
    refine ⟨rfl, ?_⟩
    obtain ⟨e2, he2, heq2, _⟩ :=
      getOp_good st2 dm2 lm2 (refPut cfg.capacity ord k) k hGd
        (mem_refPut_self cfg hcap ord k)
    rw [heq2]
    rw [he] at he2
    cases he2
    rw [hev]
  · by_cases hk : k ∈ ord
    · obtain ⟨lm2, heq, hGd⟩ := removeOp_good st dm lm ord k hG hk
      rw [heq]
      have hf : find? lm2 k = none := by
        have h1 := hGd.hlkeys k
        cases hf2 : find? lm2 k with
        | none => rfl
        | some nd =>
          have h2 := h1.mp (by rw [hf2]; rfl)
          rw [List.mem_filter] at h2
          simp at h2
      rw [getOp_not_mem _ lm2 k hGd.hlru hf]
    · rw [removeOp_absent st lm k hG.hlru
        (find?_eq_none_of_not_mem lm k (fun hm =>
          hk ((hG.hlkeys k).mp ((find?_isSome_iff_mem lm k).mpr hm))))]
      exact congrArg Prod.snd (getOp_not_mem st lm k hG.hlru
        (find?_eq_none_of_not_mem lm k (fun hm =>
          hk ((hG.hlkeys k).mp ((find?_isSome_iff_mem lm k).mpr hm)))))
  · intro hk
    exact congrArg Prod.snd (getOp_not_mem st lm k hG.hlru
      (find?_eq_none_of_not_mem lm k (fun hm =>
        hk ((hG.hlkeys k).mp ((find?_isSome_iff_mem lm k).mpr hm)))))

/-- Witness for C8 on a fresh plain cache with key "k" and value 7: the
put returns 7, get after put returns 7, get after remove is absent, and
get on the untouched key is absent. -/
theorem get_put_remove_semantics_witness :
    ((put cachePlain (.str "k") (some 7) none).2 = .ok (some 7) ∧
      (getOp (put cachePlain (.str "k") (some 7) none).1 "k").2 =
        .ok (some 7)) ∧
    (getOp (removeOp cachePlain "k").1 "k").2 = .ok none ∧
    (getOp cachePlain "k").2 = .ok none := by
  obtain ⟨h1, h2, h3⟩ := get_put_remove_semantics cachePlain [] [] []
    { id := "c", capacity := none, maxAge := none, cacheFlushInterval := none,
      cacheFlushIntervalId := none } "k" 7 none
    (empty_state_good _ _ _ _) rfl trivial trivial
  exact ⟨h1, h2, h3 (by simp)⟩

/-- C10: `_refresh` (touch) semantics on a well-linked list. Touching a
present key makes it the fresh end and relinks the list to the touched
order; when the key is already the fresh end the call is a no-op returning
the list and both ends unchanged; when the key is the stale end and
another node exists, the stale end advances to the key's neighbor toward
the fresh end; when the key is the sole element both ends point to it
afterwards. -/
theorem refresh_touch_semantics (lm : LMap) (ord : List String) (k : String)
    (hseg : Seg lm none ord none) (hord : ord.Nodup) (hk : k ∈ ord) :
    Seg (refresh (lastD ord none) (headD ord none) lm k).1 none
      (refTouch ord k) none ∧
    (refresh (lastD ord none) (headD ord none) lm k).2.1 = some k ∧
    (refresh (lastD ord none) (headD ord none) lm k).2.2 =
      headD (refTouch ord k) none ∧
    (lastD ord none = some k →
      refresh (lastD ord none) (headD ord none) lm k =
        (lm, lastD ord none, headD ord none)) ∧
    (∀ t, ord = k :: t → t ≠ [] →
      (refresh (lastD ord none) (headD ord none) lm k).2.2 =
        headD t none) ∧
    (ord = [k] →
      (refresh (lastD ord none) (headD ord none) lm k).2.1 = some k ∧
      (refresh (lastD ord none) (headD ord none) lm k).2.2 = some k) := by
  obtain ⟨hA1, hA2, hA3, _⟩ := refresh_touch lm ord k hseg hord (Or.inl hk)
  refine ⟨hA1, hA2, hA3, ?_, ?_, ?_⟩
  · intro hfe
    exact refresh_eq_of_fresh _ _ lm k hfe
  · intro t ht hne
    subst ht
    have hkt : k ∉ t := (List.nodup_cons.mp hord).1
    have hft : refTouch (k :: t) k = t ++ [k] := by
      rw [refTouch, List.filter_cons]
      simp only [bne_self_eq_false, Bool.false_eq_true, if_false]
      rw [filter_ne_of_not_mem t k hkt]
    rw [hA3, hft]
    cases t with
    | nil => exact absurd rfl hne
    | cons x t2 => rfl
  · intro hsole
    subst hsole
    rw [refresh_eq_of_fresh (lastD [k] none) (headD [k] none) lm k rfl]
    exact ⟨rfl, rfl⟩

/-- The two-node linked list a (stale end) <-> b (fresh end), used to
instantiate the touch theorem. -/
def wLM : LMap := [("a", ⟨none, some "b"⟩), ("b", ⟨some "a", none⟩)]

/-- Witness for C10: touching "a" (the stale end of the two-node list
a, b) makes "a" the fresh end, hands the stale end to "b", and relinks
the nodes into the touched order b, a. -/
theorem refresh_touch_semantics_witness :
    (refresh (lastD ["a", "b"] none) (headD ["a", "b"] none) wLM "a").2.1 =
      some "a" ∧
    (refresh (lastD ["a", "b"] none) (headD ["a", "b"] none) wLM "a").2.2 =
      some "b" ∧
    Seg (refresh (lastD ["a", "b"] none) (headD ["a", "b"] none) wLM "a").1
      none (refTouch ["a", "b"] "a") none := by
  obtain ⟨h1, h2, h3, h4, h5, h6⟩ := refresh_touch_semantics wLM ["a", "b"] "a"
    ⟨⟨⟨none, some "b"⟩, rfl, rfl, rfl⟩, ⟨⟨some "a", none⟩, rfl, rfl, rfl⟩,
      trivial⟩ (by decide) (by decide)
  exact ⟨h2, h5 ["b"] rfl (by decide), h1⟩
